import Mathlib

/-!
Verification development for the chain-observation and transaction-funding
subsystem (mempool-polling chain bridge and btcwallet-backed wallet anchor).

The Go source is shallowly embedded:
* Go maps are modelled as association lists with unique keys (assignment
  replaces the first matching key or appends, `delete` filters the key out,
  iteration order is list order).
* `time.Time`/`time.Duration` are modelled as natural numbers; `t.Before u`
  is `t < u`, `t.After u` is `u < t`, `now.Add d` is `now + d`.
* Go `int64` quantities (amounts, block heights, fees) are modelled as `Int`;
  64-bit overflow is outside the model.  The one machine-width conversion the
  code performs on possibly-negative data - `uint32(int64 - int64 + 1)` in the
  confirmation monitor - is modelled exactly, as `(x % 2^32).toNat`.
* Each network call made during one poller tick is modelled as an oracle
  field of that tick's input (`none` = the call returned an error).
-/

/-- Outpoints (`wire.OutPoint`): a txid hash together with an output index.
Hashes are abstracted to naturals. -/
structure OutPoint where
  hash : Nat
  index : Nat
deriving DecidableEq, Repr

/-- Go map assignment `m[k] = v` on an association list: replace the first
binding of `k`, or append a new binding. -/
def assocSet {κ β : Type} [DecidableEq κ] : List (κ × β) → κ → β → List (κ × β)
  | [], k, v => [(k, v)]
  | (k', v') :: rest, k, v =>
      if k' = k then (k, v) :: rest else (k', v') :: assocSet rest k v

/-- Go map lookup `m[k]` on an association list. -/
def assocGet {κ β : Type} [DecidableEq κ] : List (κ × β) → κ → Option β
  | [], _ => none
  | (k', v') :: rest, k => if k' = k then some v' else assocGet rest k

/-- Go `delete(m, k)` on an association list. -/
def assocDel {κ β : Type} [DecidableEq κ] : List (κ × β) → κ → List (κ × β)
  | [], _ => []
  | (k', v') :: rest, k => if k' = k then assocDel rest k else (k', v') :: assocDel rest k

/-! ### UTXO lease manager (`utxoLockManager`, src btcwallet lock manager)

State: the `locks` map from outpoint to `utxoLock{expiresAt}`. -/

/-- The lease table: outpoint to expiry time. -/
def LockState : Type := List (OutPoint × Nat)

instance : DecidableEq LockState := by unfold LockState; infer_instance

/-- Typed errors of the lock manager (`ErrUTXOLocked`, `ErrUTXONotLocked`). -/
inductive LockError where
  | utxoLocked
  | utxoNotLocked
deriving DecidableEq, Repr

/-- `utxoLockManager.LockUTXO`: fails with `ErrUTXOLocked` when an unexpired
lease exists, otherwise installs `expiresAt = now + duration`. -/
def lockUTXO (m : LockState) (now : Nat) (outpoint : OutPoint) (duration : Nat) :
    Except LockError LockState :=
  match assocGet m outpoint with
  | some expiresAt =>
      if now < expiresAt then
        .error .utxoLocked
      else
        .ok (assocSet m outpoint (now + duration))
  | none => .ok (assocSet m outpoint (now + duration))

/-- `utxoLockManager.UnlockUTXO`: fails with `ErrUTXONotLocked` when no entry
exists, otherwise deletes the entry (expired or not). -/
def unlockUTXO (m : LockState) (outpoint : OutPoint) : Except LockError LockState :=
  match assocGet m outpoint with
  | none => .error .utxoNotLocked
  | some _ => .ok (assocDel m outpoint)

/-- `utxoLockManager.IsLocked`: an entry exists and `now` is before its expiry. -/
def isLocked (m : LockState) (now : Nat) (outpoint : OutPoint) : Bool :=
  match assocGet m outpoint with
  | none => false
  | some expiresAt => decide (now < expiresAt)

/-! ### Result cache (`cache` in the mempool package)

`cacheEntry{value, expiresAt}`; two bounded maps keyed by height. -/

/-- `cacheEntry`: a value with an expiry time. -/
structure CEntry (α : Type) where
  value : α
  expiresAt : Nat
deriving DecidableEq, Repr

/-- The `blockHashes` map (height to hash entry); hashes abstracted to `Nat`. -/
def BlockHashMap : Type := List (Nat × CEntry Nat)

instance : DecidableEq BlockHashMap := by unfold BlockHashMap; infer_instance

/-- The `blockTimestamps` map (height to `int64` timestamp entry). -/
def BlockTimestampMap : Type := List (Nat × CEntry Int)

instance : DecidableEq BlockTimestampMap := by unfold BlockTimestampMap; infer_instance

/-- The eviction scan of `setBlockHash`/`setBlockTimestamp`: starting from
`oldestHeight = 0, oldestTime = now`, take any entry whose expiry is strictly
before the running minimum. -/
def findOldestAux {α : Type} : List (Nat × CEntry α) → Nat → Nat → Nat
  | [], oldestHeight, _ => oldestHeight
  | (h, e) :: rest, oldestHeight, oldestTime =>
      if e.expiresAt < oldestTime then
        findOldestAux rest h e.expiresAt
      else
        findOldestAux rest oldestHeight oldestTime

/-- `var oldestHeight uint32; oldestTime := time.Now(); for h, entry := range m ...` -/
def findOldest {α : Type} (m : List (Nat × CEntry α)) (now : Nat) : Nat :=
  findOldestAux m 0 now

/-- `cache.setBlockHash`: insert/overwrite, then if the map holds more than
100 entries run the eviction scan and delete the height it names. -/
def setBlockHash (c : BlockHashMap) (now ttl : Nat) (height hash : Nat) : BlockHashMap :=
  let m := assocSet c height ⟨hash, now + ttl⟩
  if 100 < m.length then assocDel m (findOldest m now) else m

/-- `cache.getBlockHash`: absent or expired entries read as not-found
(`none`); the stored hash value otherwise. -/
def getBlockHash (c : BlockHashMap) (now : Nat) (height : Nat) : Option Nat :=
  match assocGet c height with
  | none => none
  | some entry => if entry.expiresAt < now then none else some entry.value

/-- `cache.setBlockTimestamp`: as `setBlockHash` with capacity 1000. -/
def setBlockTimestamp (c : BlockTimestampMap) (now ttl : Nat) (height : Nat)
    (timestamp : Int) : BlockTimestampMap :=
  let m := assocSet c height ⟨timestamp, now + ttl⟩
  if 1000 < m.length then assocDel m (findOldest m now) else m

/-- `cache.getBlockTimestamp`: absent or expired entries read as not-found. -/
def getBlockTimestamp (c : BlockTimestampMap) (now : Nat) (height : Nat) : Option Int :=
  match assocGet c height with
  | none => none
  | some entry => if entry.expiresAt < now then none else some entry.value

/-! ### Rate-limited chain-data client (`Client.doRequest`)

One request is a bounded retry loop (`for attempt := 0; attempt <=
RetryAttempts; attempt++`).  Each iteration's outcome (network failure or an
HTTP status code) is an oracle `resps : Nat -> Attempt` indexed by the
attempt number.  Rate-limiter waits, request construction and body reads are
not modelled (their error paths abort before any classification the claims
speak about); sleeps only affect timing. -/

/-- The outcome of one HTTP attempt: `http.Client.Do` error, or a response
with a status code. -/
inductive Attempt where
  | netErr
  | resp (code : Nat)
deriving DecidableEq, Repr

/-- The result of `doRequest`, tagged with the index of the attempt on which
the function returned (so "no further attempt is made" is observable).
`success` = 2xx body returned; `notFound` = the 404 branch; `terminal` = the
`default` branch (any other non-retryable status); `netFail` = a transport
error on the last allowed attempt, returned directly; `exhausted` = a 429 or
retryable 5xx on the last allowed attempt, returned wrapped with the attempt
count. -/
inductive ReqOutcome where
  | success (attempt : Nat)
  | notFound (attempt : Nat)
  | terminal (code attempt : Nat)
  | netFail (attempt : Nat)
  | exhausted (code attempt : Nat)
deriving DecidableEq, Repr

/-- The retry loop of `doRequest`.  `left` is the number of iterations that
may still follow the current one, so the Go guard `attempt <
c.cfg.RetryAttempts` is `left` being nonzero. -/
def doRequestGo (resps : Nat → Attempt) : Nat → Nat → ReqOutcome
  | attempt, left =>
    match resps attempt, left with
    | .netErr, 0 => .netFail attempt
    | .netErr, l + 1 => doRequestGo resps (attempt + 1) l
    | .resp c, l =>
      if 200 ≤ c ∧ c < 300 then .success attempt
      else if c = 429 then
        match l with
        | 0 => .exhausted c attempt
        | l' + 1 => doRequestGo resps (attempt + 1) l'
      else if c = 404 then .notFound attempt
      else if c = 500 ∨ c = 502 ∨ c = 503 ∨ c = 504 then
        match l with
        | 0 => .exhausted c attempt
        | l' + 1 => doRequestGo resps (attempt + 1) l'
      else .terminal c attempt

/-- `Client.doRequest` with `RetryAttempts = retryAttempts`. -/
def doRequest (retryAttempts : Nat) (resps : Nat → Attempt) : ReqOutcome :=
  doRequestGo resps 0 retryAttempts

/-- Attempt outcomes the loop retries: transport errors, 429, and the four
5xx codes the switch enumerates. -/
def retryable : Attempt → Bool
  | .netErr => true
  | .resp c => decide (c = 429 ∨ c = 500 ∨ c = 502 ∨ c = 503 ∨ c = 504)

/-! ### Transaction funding engine (`WalletAnchor.FundPsbt`)

The wallet's unspent listing, the lock table and the change-address
derivation are oracles; amounts and fee rates are `int64` modelled as `Int`.
The fixed coin-selection lease duration `10 * time.Minute` is modelled as
600 time units. -/

/-- One entry of the `ListUnspent` result.  `validTxid` models whether
`chainhash.NewHashFromStr(utxo.TxID)` succeeds (on failure the entry is
skipped). -/
structure Utxo where
  validTxid : Bool
  op : OutPoint
  amount : Int
deriving Repr

/-- The arguments and oracles of one `FundPsbt` call: the template's outputs
(values of `packet.UnsignedTx.TxOut`), the template's input count, the fee
rate (sat/kw), the requested change index, the `ListUnspent` result, and
whether change-address/script derivation succeeds. -/
structure FundInput where
  txOutValues : List Int
  nTxIn : Nat
  feeRate : Int
  changeIdx : Int
  unspent : List Utxo
  changeScriptOk : Bool

/-- `FundPsbt` error cases reached after a successful listing. -/
inductive FundError where
  | insufficientFunds
  | changeAddrFailed
deriving DecidableEq, Repr

/-- The returned `tapsend.FundedPsbt`, reduced to the claim-relevant fields:
final output values, the selected inputs (outpoint and amount), the change
output index and the estimated fee. -/
structure FundedPsbt where
  outValues : List Int
  selected : List (OutPoint × Int)
  changeOutputIndex : Int
  chainFees : Int
deriving Repr

/-- `outputAmount`: the `outputAmount += txOut.Value` accumulation over the
template's outputs. -/
def sumOutputs (vals : List Int) : Int := vals.sum

/-- The linear size model: `len(TxIn)*180 + len(TxOut)*34 + 10`. -/
def estimatedVSize (fi : FundInput) : Int :=
  (fi.nTxIn : Int) * 180 + (fi.txOutValues.length : Int) * 34 + 10

/-- `estimatedFee := vsize * (feeRate * 250 / 1000) / 1000` with Go's
truncating `int64` division. -/
def estimatedFee (fi : FundInput) : Int :=
  Int.tdiv (estimatedVSize fi * Int.tdiv (fi.feeRate * 250) 1000) 1000

/-- `totalRequired = outputAmount + estimatedFee`. -/
def totalRequired (fi : FundInput) : Int :=
  sumOutputs fi.txOutValues + estimatedFee fi

/-- The coin-selection loop: skip unparsable txids and leased outpoints,
otherwise select, lease for 600 units, and break once the running total
meets the requirement.  Returns the selected inputs, the running total, and
the updated lock table. -/
def selectCoins (now : Nat) (required : Int) :
    List Utxo → List (OutPoint × Int) → Int → LockState →
      List (OutPoint × Int) × Int × LockState
  | [], sel, total, locks => (sel, total, locks)
  | u :: rest, sel, total, locks =>
    if !u.validTxid then selectCoins now required rest sel total locks
    else if isLocked locks now u.op then selectCoins now required rest sel total locks
    else
      let sel' := sel ++ [(u.op, u.amount)]
      let total' := total + u.amount
      let locks' := assocSet locks u.op (now + 600)
      if required ≤ total' then (sel', total', locks')
      else selectCoins now required rest sel' total' locks'

/-- `newOuts = outs[:idx] ++ [changeOut] ++ outs[idx:]`. -/
def insertAt (outs : List Int) (idx : Nat) (changeOut : Int) : List Int :=
  outs.take idx ++ [changeOut] ++ outs.drop idx

/-- `WalletAnchor.FundPsbt` after a successful `ListUnspent`: coin
selection, the insufficient-funds check, and dust-guarded change-output
construction.  Returns the funded packet and the updated lock table. -/
def fundPsbt (locks : LockState) (now : Nat) (fi : FundInput) :
    Except FundError (FundedPsbt × LockState) :=
  let required := totalRequired fi
  match selectCoins now required fi.unspent [] 0 locks with
  | (sel, totalInput, locks') =>
    if totalInput < required then .error .insufficientFunds
    else
      let change := totalInput - required
      if 546 < change then
        if fi.changeScriptOk then
          if 0 ≤ fi.changeIdx ∧ fi.changeIdx ≤ (fi.txOutValues.length : Int) then
            .ok (⟨insertAt fi.txOutValues fi.changeIdx.toNat change, sel,
                  fi.changeIdx, estimatedFee fi⟩, locks')
          else
            .ok (⟨fi.txOutValues ++ [change], sel,
                  (fi.txOutValues.length : Int), estimatedFee fi⟩, locks')
        else .error .changeAddrFailed
      else .ok (⟨fi.txOutValues, sel, -1, estimatedFee fi⟩, locks')

/-- Sum of the amounts of the selected inputs of a funded packet. -/
def selectedTotal (r : FundedPsbt) : Int := (r.selected.map Prod.snd).sum

/-! ### Confirmation notifier (`confirmationNotifier.monitorConfirmation`)

One poller per request.  A tick's oracle carries the cancellation state of
the request's context (`ctx.Done()`/`quit` observed at the top of the loop),
the `GetTransaction` result and the `GetCurrentHeight` result.  The mutable
locals `txBlockHeight` and `lastBlockHeight` (both `int64`, initially 0) are
the state.  A delivered confirmation event together with the registry
delete and the `return` is modelled by a tick output with `conf = true` and
`halt = true`; cancellation is a `halt` without `conf`. -/

/-- `TransactionStatus`: the `Confirmed` flag and the `int64` block height. -/
structure TxStatusR where
  confirmed : Bool
  blockHeight : Int
deriving DecidableEq, Repr

/-- The oracle data consumed by one tick of `monitorConfirmation`. -/
structure TickInput where
  cancelled : Bool
  tx : Option TxStatusR
  height : Option Nat
deriving DecidableEq, Repr

/-- The poller's mutable locals. -/
structure MonState where
  txBlockHeight : Int
  lastBlockHeight : Int
deriving DecidableEq, Repr

/-- What one tick emitted: a (best-effort) reorg signal, a confirmation
event, and whether the goroutine returned on this tick. -/
structure TickOut where
  reorg : Bool
  conf : Bool
  halt : Bool
deriving DecidableEq, Repr

/-- One iteration of the `monitorConfirmation` loop for a request with
target `numConfs`.  Mirrors the Go control flow: cancellation check, fetch
transaction (error => `continue`), confirmed check, first-confirmation
height recording, fetch current height (error => `continue`), the
`uint32(int64(currentHeight) - txBlockHeight + 1)` confirmation count, the
reorg guard, the `lastBlockHeight` update, and the delivery/cleanup branch. -/
def monStep (numConfs : Nat) (s : MonState) (i : TickInput) : MonState × TickOut :=
  if i.cancelled then (s, ⟨false, false, true⟩)
  else
    match i.tx with
    | none => (s, ⟨false, false, false⟩)
    | some tx =>
      if !tx.confirmed then (s, ⟨false, false, false⟩)
      else
        let txH := if s.txBlockHeight = 0 then tx.blockHeight else s.txBlockHeight
        match i.height with
        | none => (⟨txH, s.lastBlockHeight⟩, ⟨false, false, false⟩)
        | some currentHeight =>
          let confs : Nat := (((currentHeight : Int) - txH + 1) % (2 ^ 32 : Int)).toNat
          let reorg := decide (0 < s.lastBlockHeight) && decide (txH ≠ s.lastBlockHeight)
          let s' : MonState := ⟨txH, txH⟩
          if numConfs ≤ confs then (s', ⟨reorg, true, true⟩)
          else (s', ⟨reorg, false, false⟩)

/-- The whole polling loop: outputs of the successive ticks, ending with
the tick on which the goroutine returns (if any). -/
def monRun (numConfs : Nat) (s : MonState) : List TickInput → List TickOut
  | [] => []
  | i :: rest =>
    let (s', o) := monStep numConfs s i
    if o.halt then [o] else o :: monRun numConfs s' rest

/-- The containing block height carried by the first tick whose transaction
fetch succeeded and reported `Confirmed`. -/
def firstConfirmed : List TickInput → Option Int
  | [] => none
  | i :: rest =>
    match i.tx with
    | some s => if s.confirmed then some s.blockHeight else firstConfirmed rest
    | none => firstConfirmed rest

/-- Modelled from the spec's words (confirmation-delivery property), for
comparison with `monRun`: every tick is silent until the first tick that
observes the transaction confirmed and a current height `cur` with
`cur - H + 1 >= C`; that tick delivers exactly one confirmation event,
removes the request and ends the stream. -/
def specConfOuts (numConfs heightH : Nat) : List TickInput → List TickOut
  | [] => []
  | i :: rest =>
    match i.tx with
    | some s =>
      if s.confirmed then
        match i.height with
        | some cur =>
          if numConfs + heightH ≤ cur + 1 then [⟨false, true, true⟩]
          else ⟨false, false, false⟩ :: specConfOuts numConfs heightH rest
        | none => ⟨false, false, false⟩ :: specConfOuts numConfs heightH rest
      else ⟨false, false, false⟩ :: specConfOuts numConfs heightH rest
    | none => ⟨false, false, false⟩ :: specConfOuts numConfs heightH rest

/-! ### Epoch notifier (`epochNotifier`)

`RegisterEpoch` derives a cancellable context from the caller's but discards
it (`_, cancel := context.WithCancel(ctx)`); the subscriber record keeps only
the channels and the cancel function.  The poll loop broadcasts to every
subscriber non-blockingly.  `cancelled` models the caller's token having
fired; `chanFull` models a full `blockChan` (the `default` case skips it). -/

/-- An `epochSubscriber` together with its caller-side token state. -/
structure EpochSub where
  cancelled : Bool
  chanFull : Bool
deriving DecidableEq, Repr

/-- The epoch notifier's state: subscriber list and `lastHeight`. -/
structure EpochState where
  subs : List EpochSub
  lastHeight : Nat
deriving DecidableEq, Repr

/-- `epochNotifier.RegisterEpoch`: append the subscriber. -/
def registerEpoch (s : EpochState) (sub : EpochSub) : EpochState :=
  ⟨s.subs ++ [sub], s.lastHeight⟩

/-- One tick of `epochNotifier.pollLoop`: fetch the height (`none` = error,
offered to error channels only); if strictly above `lastHeight`, offer the
new height to every subscriber's block channel (skipping full ones) and
advance `lastHeight`.  The second component records, per subscriber in
order, whether a height event was delivered to its block channel. -/
def epochTick (s : EpochState) (fetch : Option Nat) : EpochState × List Bool :=
  match fetch with
  | none => (s, s.subs.map (fun _ => false))
  | some h =>
    if s.lastHeight < h then
      (⟨s.subs, h⟩, s.subs.map (fun sub => !sub.chanFull))
    else (s, s.subs.map (fun _ => false))

/-! ### Confirmation registry (`confirmationNotifier` registration and Stop)

`requests` is the txid-keyed map; registering overwrites the txid's slot and
spawns a fresh monitor goroutine.  `monitors` records every spawned monitor
(by request identity) with whether its context's `cancel` has been invoked.
`Stop` closes `quit`, waits, then calls `cancel` on exactly the requests
still in the map and clears the map. -/

/-- Registry state: txid-keyed request map (values are request identities)
and all spawned monitors with their context-cancelled flag. -/
structure ConfNotifierState where
  requests : List (Nat × Nat)
  monitors : List (Nat × Bool)
deriving DecidableEq, Repr

/-- `confirmationNotifier.RegisterConfirmation` for txid `txid`, creating
request `reqId`: store it in the map (overwriting any previous request for
the txid) and start its monitor. -/
def registerConfirmation (s : ConfNotifierState) (txid reqId : Nat) : ConfNotifierState :=
  ⟨assocSet s.requests txid reqId, s.monitors ++ [(reqId, false)]⟩

/-- `confirmationNotifier.Stop`: invoke `cancel` on every request present in
the map, then clear the map.  Monitors not in the map keep their flag. -/
def stopNotifier (s : ConfNotifierState) : ConfNotifierState :=
  ⟨[], s.monitors.map (fun m =>
      if m.1 ∈ s.requests.map Prod.snd then (m.1, true) else m)⟩

/-! ### Concrete inputs used by counterexamples and witnesses -/

/-- 100 unexpired cache entries at heights 1..100 (written just before
`now = 0` with a TTL keeping every expiry in the future; the earliest
expiry, 5, belongs to height 1). -/
def fullFreshHashCache : BlockHashMap :=
  (List.range 100).map (fun i => (i + 1, ⟨0, 5 + i⟩))

/-- A second copy of the same 100-entry unexpired cache, used for the
read-after-write counterexample. -/
def fullFreshHashCacheB : BlockHashMap :=
  (List.range 100).map (fun i => (i + 1, ⟨0, 5 + i⟩))

/-- Two poll ticks that observe the transaction confirmed at height 100 and
then reported at height 90 (a reorg per the spec); current height 100 then
101. -/
def reorgTrace : List TickInput :=
  [⟨false, some ⟨true, 100⟩, some 100⟩, ⟨false, some ⟨true, 90⟩, some 101⟩]

/-- The end-to-end confirmation scenario: confirmed at height 98, current
height 100 (3 confirmations) then 103 (6 confirmations). -/
def confScenarioTrace : List TickInput :=
  [⟨false, some ⟨true, 98⟩, some 100⟩, ⟨false, some ⟨true, 98⟩, some 103⟩]

/-! ## Theorems

First, library lemmas about the association-list map model shared by
several claims. -/

theorem assocGet_assocSet_self {κ β : Type} [DecidableEq κ]
    (m : List (κ × β)) (k : κ) (v : β) : assocGet (assocSet m k v) k = some v := by
  induction m with
  | nil => simp [assocSet, assocGet]
  | cons p rest ih =>
    by_cases h : p.1 = k <;> simp [assocSet, assocGet, h, ih]

theorem assocGet_assocDel_ne {κ β : Type} [DecidableEq κ]
    (m : List (κ × β)) (k k' : κ) (hne : k ≠ k') :
    assocGet (assocDel m k) k' = assocGet m k' := by
  induction m with
  | nil => rfl
  | cons p rest ih =>
    obtain ⟨k1, v1⟩ := p
    by_cases h : k1 = k
    · have h2 : k1 ≠ k' := by rw [h]; exact hne
      simp [assocDel, assocGet, h, h2, ih, hne]
    · by_cases h3 : k1 = k' <;> simp [assocDel, assocGet, h, h3, ih, Ne.symm hne]

theorem assocSet_assocSet_same {κ β : Type} [DecidableEq κ]
    (m : List (κ × β)) (k : κ) (v v' : β) :
    assocSet (assocSet m k v) k v' = assocSet m k v' := by
  induction m with
  | nil => simp [assocSet]
  | cons p rest ih =>
    by_cases h : p.1 = k <;> simp [assocSet, h, ih]

theorem mem_map_snd_assocSet_of {κ β : Type} [DecidableEq κ]
    (m : List (κ × β)) (k : κ) (v r : β)
    (hm : r ∉ m.map Prod.snd) (hv : r ≠ v) :
    r ∉ (assocSet m k v).map Prod.snd := by
  induction m with
  | nil => simpa [assocSet] using hv
  | cons p rest ih =>
    obtain ⟨k1, v1⟩ := p
    simp only [List.map_cons, List.mem_cons, not_or] at hm
    by_cases h : k1 = k
    · rw [show assocSet ((k1, v1) :: rest) k v = (k, v) :: rest by simp [assocSet, h]]
      simp only [List.map_cons, List.mem_cons, not_or]
      exact ⟨hv, hm.2⟩
    · rw [show assocSet ((k1, v1) :: rest) k v = (k1, v1) :: assocSet rest k v by
        simp [assocSet, h]]
      simp only [List.map_cons, List.mem_cons, not_or]
      exact ⟨hm.1, ih hm.2⟩

theorem self_mem_map_snd_assocSet {κ β : Type} [DecidableEq κ]
    (m : List (κ × β)) (k : κ) (v : β) :
    v ∈ (assocSet m k v).map Prod.snd := by
  induction m with
  | nil => simp [assocSet]
  | cons p rest ih =>
    by_cases h : p.1 = k <;> simp [assocSet, h, ih]

/-- C3: a second `Lease` while an unexpired lease exists for the outpoint
fails with `AlreadyLeased`; with no entry or an expired one it succeeds and
installs expiry `now + duration`; once the duration has elapsed, `IsLeased`
reports false and a fresh `Lease` on the same outpoint succeeds. -/
theorem lease_lifecycle (m : LockState) (now dur d2 t : Nat) (op : OutPoint) :
    (isLocked m now op = true → lockUTXO m now op dur = .error .utxoLocked) ∧
    (isLocked m now op = false → lockUTXO m now op dur = .ok (assocSet m op (now + dur))) ∧
    (now + dur ≤ t →
      isLocked (assocSet m op (now + dur)) t op = false ∧
      lockUTXO (assocSet m op (now + dur)) t op d2 =
        .ok (assocSet (assocSet m op (now + dur)) op (t + d2))) := by
  refine ⟨?_, ?_, fun ht => ?_⟩
  · intro h
    simp only [isLocked] at h
    simp only [lockUTXO]
    cases hg : assocGet m op with
    | none => rw [hg] at h; simp at h
    | some e =>
      rw [hg] at h
      simp only [decide_eq_true_eq] at h
      simp [h]
  · intro h
    simp only [isLocked] at h
    simp only [lockUTXO]
    cases hg : assocGet m op with
    | none => simp
    | some e =>
      rw [hg] at h
      simp only [decide_eq_true_eq] at h
      simp at h
      simp [Nat.not_lt.mpr h]
  · have hget := assocGet_assocSet_self m op (now + dur)
    constructor
    · simp [isLocked, hget, Nat.not_lt.mpr ht]
    · simp [lockUTXO, hget, Nat.not_lt.mpr ht]

/-- Witness for C3 at concrete inputs: an unexpired lease (expiry 10, now 4)
rejects a second lease, and 5 time units after a lease of duration 5 taken
at time 0 the outpoint reads unleased. -/
theorem lease_lifecycle_witness :
    lockUTXO [((⟨1, 0⟩ : OutPoint), 10)] 4 ⟨1, 0⟩ 7 = .error .utxoLocked ∧
    isLocked (assocSet ([] : LockState) ⟨1, 0⟩ (0 + 5)) 5 ⟨1, 0⟩ = false := by
  constructor
  · exact (lease_lifecycle [((⟨1, 0⟩ : OutPoint), 10)] 4 7 0 5 ⟨1, 0⟩).1 (by decide)
  · exact ((lease_lifecycle ([] : LockState) 0 5 3 5 ⟨1, 0⟩).2.2 (by decide)).1

/-- C5 (code bug): writing a 101st fresh entry into the block-hash cache is
supposed to evict the single entry with the earliest expiry (height 1,
expiry 5) and keep the map at its capacity of 100; instead the eviction
scan, whose running minimum starts at `time.Now()`, matches no unexpired
entry, deletes the absent default key 0, and leaves 101 entries with
height 1 still present. -/
theorem setBlockHash_capacity_exceeded :
    (setBlockHash fullFreshHashCache 0 10 200 7).length = 101 ∧
    assocGet (setBlockHash fullFreshHashCache 0 10 200 7) 1 = some ⟨0, 5⟩ := by decide

/-- C10: registering a second confirmation request for the same txid
overwrites the registry slot; the first request's monitor stays active with
its context uncancelled, and `Stop` therefore cancels only the request
still present in the registry. -/
theorem register_confirmation_overwrite (s : ConfNotifierState) (txid r1 r2 : Nat)
    (h12 : r1 ≠ r2) (hfresh : r1 ∉ s.requests.map Prod.snd) :
    assocGet (registerConfirmation (registerConfirmation s txid r1) txid r2).requests txid =
      some r2 ∧
    r1 ∉ (registerConfirmation (registerConfirmation s txid r1) txid r2).requests.map
      Prod.snd ∧
    (r1, false) ∈ (registerConfirmation (registerConfirmation s txid r1) txid r2).monitors ∧
    (stopNotifier (registerConfirmation (registerConfirmation s txid r1) txid r2)).requests
      = [] ∧
    (r1, false) ∈
      (stopNotifier (registerConfirmation (registerConfirmation s txid r1) txid r2)).monitors ∧
    (r2, true) ∈
      (stopNotifier (registerConfirmation (registerConfirmation s txid r1) txid r2)).monitors := by
  have hreq :
      (registerConfirmation (registerConfirmation s txid r1) txid r2).requests =
        assocSet s.requests txid r2 := by
    simp [registerConfirmation, assocSet_assocSet_same]
  have hmon :
      (registerConfirmation (registerConfirmation s txid r1) txid r2).monitors =
        s.monitors ++ [(r1, false), (r2, false)] := by
    simp [registerConfirmation]
  have hr1 : r1 ∉ (assocSet s.requests txid r2).map Prod.snd :=
    mem_map_snd_assocSet_of s.requests txid r2 r1 hfresh h12
  have hr2 : r2 ∈ (assocSet s.requests txid r2).map Prod.snd :=
    self_mem_map_snd_assocSet s.requests txid r2
  refine ⟨?_, ?_, ?_, rfl, ?_, ?_⟩
  · rw [hreq]; exact assocGet_assocSet_self s.requests txid r2
  · rw [hreq]; exact hr1
  · rw [hmon]; simp
  · simp only [stopNotifier, hreq, hmon]
    refine List.mem_map.mpr ⟨(r1, false), by simp, ?_⟩
    simp [hr1]
  · simp only [stopNotifier, hreq, hmon]
    refine List.mem_map.mpr ⟨(r2, false), by simp, ?_⟩
    simp [hr2]

/-- Witness for C10: two registrations for txid 7 from the empty notifier,
then shutdown. -/
theorem register_confirmation_overwrite_witness :
    assocGet (registerConfirmation (registerConfirmation ⟨[], []⟩ 7 1) 7 2).requests 7 =
      some 2 ∧
    (1, false) ∈ (stopNotifier (registerConfirmation (registerConfirmation ⟨[], []⟩ 7 1) 7 2)).monitors ∧
    (2, true) ∈ (stopNotifier (registerConfirmation (registerConfirmation ⟨[], []⟩ 7 1) 7 2)).monitors := by
  have h := register_confirmation_overwrite ⟨[], []⟩ 7 1 2 (by decide) (by decide)
  exact ⟨h.1, h.2.2.2.2.1, h.2.2.2.2.2⟩

/-- The per-step invariant behind C4: under the invariant that
`lastBlockHeight` is 0 or equals the frozen `txBlockHeight`, one monitor
tick never sets the reorg flag and re-establishes the invariant. -/
theorem monStep_reorg_false (numConfs : Nat) (s : MonState) (i : TickInput)
    (hs : s.lastBlockHeight = 0 ∨ s.lastBlockHeight = s.txBlockHeight) :
    (monStep numConfs s i).2.reorg = false ∧
    ((monStep numConfs s i).1.lastBlockHeight = 0 ∨
      (monStep numConfs s i).1.lastBlockHeight = (monStep numConfs s i).1.txBlockHeight) := by
  obtain ⟨cancelled, otx, oh⟩ := i
  cases cancelled with
  | true => simp [monStep, hs]
  | false =>
    cases otx with
    | none => simp [monStep, hs]
    | some tx =>
      obtain ⟨cf, bh⟩ := tx
      cases cf with
      | false => simp [monStep, hs]
      | true =>
        cases oh with
        | none =>
          by_cases h0 : s.txBlockHeight = 0 <;> rcases hs with hs | hs <;>
            simp [monStep, h0, hs]
        | some cur =>
          refine ⟨?_, ?_⟩ <;>
            (by_cases h0 : s.txBlockHeight = 0 <;> rcases hs with hs | hs <;>
              simp [monStep, h0, hs] <;> split <;> simp)

/-- C4 (code bug): the code never emits a reorg signal on any tick of any
trace, because `txBlockHeight` is frozen at its first recorded value and
`lastBlockHeight` is only ever assigned that same value, so the guard
`lastBlockHeight > 0 && txBlockHeight != lastBlockHeight` is unsatisfiable
- while the claim requires a signal whenever the observed containing height
changes (for example on `reorgTrace`, which confirms at height 100 and then
reports height 90). -/
theorem no_reorg_signal_ever (numConfs : Nat) (trace : List TickInput) :
    ∀ o ∈ monRun numConfs ⟨0, 0⟩ trace, o.reorg = false := by
  suffices h : ∀ (s : MonState),
      (s.lastBlockHeight = 0 ∨ s.lastBlockHeight = s.txBlockHeight) →
      ∀ o ∈ monRun numConfs s trace, o.reorg = false from
    h ⟨0, 0⟩ (Or.inl rfl)
  induction trace with
  | nil => intro s _ o ho; simp [monRun] at ho
  | cons i rest ih =>
    intro s hs o ho
    obtain ⟨hr, hinv⟩ := monStep_reorg_false numConfs s i hs
    rw [show monRun numConfs s (i :: rest) =
          (if (monStep numConfs s i).2.halt then [(monStep numConfs s i).2]
            else (monStep numConfs s i).2 :: monRun numConfs (monStep numConfs s i).1 rest)
        from by rw [monRun]] at ho
    by_cases hhalt : (monStep numConfs s i).2.halt
    · rw [if_pos hhalt] at ho
      simp at ho
      rw [ho]; exact hr
    · rw [if_neg hhalt] at ho
      rcases List.mem_cons.mp ho with ho | ho
      · rw [ho]; exact hr
      · exact ih (monStep numConfs s i).1 hinv o ho

/-- Witness for C4 at the reorg-provoking trace: its first tick's (silent)
output indeed carries no reorg signal. -/
theorem no_reorg_signal_ever_witness : TickOut.reorg ⟨false, false, false⟩ = false :=
  no_reorg_signal_ever 6 reorgTrace ⟨false, false, false⟩ (by decide)

/-- Helper for C9: once every tick from position `j` on observes the
cancellation as fired, the monitor's only possible output at or after
position `j` is the silent halt (no confirmation, no reorg signal). -/
theorem monRun_cancelled_silent (numConfs : Nat) :
    ∀ (trace : List TickInput) (j : Nat) (s : MonState),
      (∀ i ∈ trace.drop j, i.cancelled = true) →
      ∀ o ∈ (monRun numConfs s trace).drop j, o = ⟨false, false, true⟩ := by
  intro trace
  induction trace with
  | nil => intro j s _ o ho; simp [monRun] at ho
  | cons i rest ih =>
    intro j s hc o ho
    cases j with
    | zero =>
      have hci : i.cancelled = true := hc i (by simp)
      rw [show monRun numConfs s (i :: rest) = [⟨false, false, true⟩] from by
        rw [monRun]; simp [monStep, hci]] at ho
      simpa using ho
    | succ j' =>
      have hc' : ∀ x ∈ rest.drop j', x.cancelled = true := by
        intro x hx
        exact hc x (by simpa using hx)
      rw [show monRun numConfs s (i :: rest) =
            (if (monStep numConfs s i).2.halt then [(monStep numConfs s i).2]
              else (monStep numConfs s i).2 :: monRun numConfs (monStep numConfs s i).1 rest)
          from by rw [monRun]] at ho
      by_cases hhalt : (monStep numConfs s i).2.halt
      · rw [if_pos hhalt] at ho
        simp at ho
      · rw [if_neg hhalt] at ho
        rw [List.drop_succ_cons] at ho
        exact ih j' _ hc' o ho

/-- C9 (corrected): after the cancellation token has fired (every tick from
position `j` on observes it), a confirmation request's poller emits nothing
but the silent halt - but an epoch subscription's token is ignored: firing
every subscriber's token changes none of the poll loop's deliveries, because
`RegisterEpoch` discards the context it derives. -/
theorem cancellation_stops_confirmation_only (numConfs : Nat) (trace : List TickInput)
    (j : Nat) (hc : ∀ i ∈ trace.drop j, i.cancelled = true)
    (subs : List EpochSub) (lastHeight : Nat) (fetch : Option Nat) :
    (∀ o ∈ (monRun numConfs ⟨0, 0⟩ trace).drop j, o = ⟨false, false, true⟩) ∧
    (epochTick ⟨subs.map (fun sub => ⟨true, sub.chanFull⟩), lastHeight⟩ fetch).2 =
      (epochTick ⟨subs, lastHeight⟩ fetch).2 := by
  constructor
  · exact monRun_cancelled_silent numConfs trace j ⟨0, 0⟩ hc
  · cases fetch with
    | none => simp [epochTick]
    | some h =>
      by_cases hlt : lastHeight < h <;> simp [epochTick, hlt, List.map_map]

/-- C9 counterexample: an epoch subscription whose cancellation token has
fired (and whose output queue has room) is still delivered the next height
event on the following tick. -/
theorem cancelled_epoch_sub_still_delivered :
    (epochTick ⟨[⟨true, false⟩], 5⟩ (some 6)).2 = [true] := by decide

/-- Witness for C9: a cancelled one-tick confirmation trace produces only
the silent halt, and firing the token of a lone epoch subscriber leaves the
tick's deliveries unchanged. -/
theorem cancellation_stops_confirmation_only_witness :
    (∀ o ∈ (monRun 1 ⟨0, 0⟩ [⟨true, some ⟨true, 5⟩, some 100⟩]).drop 0,
        o = ⟨false, false, true⟩) ∧
    (epochTick ⟨[(⟨false, false⟩ : EpochSub)].map (fun sub => ⟨true, sub.chanFull⟩), 5⟩
        (some 6)).2 =
      (epochTick ⟨[(⟨false, false⟩ : EpochSub)], 5⟩ (some 6)).2 :=
  cancellation_stops_confirmation_only 1 [⟨true, some ⟨true, 5⟩, some 100⟩] 0 (by decide)
    [⟨false, false⟩] 5 (some 6)

/-- Helper for C8: when every allowed attempt's outcome is retryable, the
loop consumes all of them and returns the last attempt's error. -/
theorem doRequestGo_all_retryable (resps : Nat → Attempt) :
    ∀ (left attempt : Nat),
      (∀ i, attempt ≤ i → i ≤ attempt + left → retryable (resps i) = true) →
      doRequestGo resps attempt left =
        match resps (attempt + left) with
        | .netErr => .netFail (attempt + left)
        | .resp c => .exhausted c (attempt + left) := by
  intro left
  induction left with
  | zero =>
    intro attempt h
    have hr := h attempt (Nat.le_refl _) (Nat.le_refl _)
    cases ha : resps attempt with
    | netErr => rw [doRequestGo.eq_def]; simp [ha]
    | resp c =>
      rw [ha] at hr
      simp only [retryable, decide_eq_true_eq] at hr
      rcases hr with hr | hr | hr | hr | hr <;> subst hr <;>
        (rw [doRequestGo.eq_def]; simp [ha])
  | succ l ih =>
    intro attempt h
    have hr := h attempt (Nat.le_refl _) (by omega)
    have hnext :
        ∀ i, attempt + 1 ≤ i → i ≤ attempt + 1 + l → retryable (resps i) = true := by
      intro i h1 h2
      exact h i (by omega) (by omega)
    have harith : attempt + 1 + l = attempt + (l + 1) := by omega
    cases ha : resps attempt with
    | netErr =>
      rw [show doRequestGo resps attempt (l + 1) = doRequestGo resps (attempt + 1) l from by
        rw [doRequestGo.eq_def]; simp [ha]]
      rw [ih (attempt + 1) hnext, harith]
    | resp c =>
      rw [ha] at hr
      simp only [retryable, decide_eq_true_eq] at hr
      have hstep : doRequestGo resps attempt (l + 1) = doRequestGo resps (attempt + 1) l := by
        rcases hr with hr | hr | hr | hr | hr <;> subst hr <;>
          (rw [doRequestGo.eq_def]; simp [ha])
      rw [hstep, ih (attempt + 1) hnext, harith]

/-- C8 (corrected): a 4xx response other than 429 terminates the request on
the spot, with no further attempt (404 through its dedicated branch,
everything else through the default branch); and when each allowed attempt
fails with a transport error, a 429, or one of the four retryable 5xx codes
(500, 502, 503, 504), the loop retries through the configured attempt count
and returns the last attempt's error.  Other 5xx codes (501, 505, ...) are
not retried - they also terminate immediately via the default branch. -/
theorem doRequest_classification (retryAttempts : Nat) (resps : Nat → Attempt) :
    (∀ attempt left c, 400 ≤ c → c < 500 → c ≠ 429 → resps attempt = .resp c →
        doRequestGo resps attempt left =
          if c = 404 then .notFound attempt else .terminal c attempt) ∧
    ((∀ i, i ≤ retryAttempts → retryable (resps i) = true) →
        doRequest retryAttempts resps =
          match resps retryAttempts with
          | .netErr => .netFail retryAttempts
          | .resp c => .exhausted c retryAttempts) := by
  constructor
  · intro attempt left c h4 h5 h429 hr
    have h2 : ¬(200 ≤ c ∧ c < 300) := by omega
    have h5xx : ¬(c = 500 ∨ c = 502 ∨ c = 503 ∨ c = 504) := by omega
    by_cases h404 : c = 404
    · rw [doRequestGo.eq_def]
      simp [hr, h2, h429, h404]
    · rw [doRequestGo.eq_def]
      simp [hr, h2, h429, h404, h5xx]
  · intro h
    have hall := doRequestGo_all_retryable resps retryAttempts 0 (by
      intro i h1 h2
      exact h i (by omega))
    simpa [doRequest] using hall

/-- C8 counterexample: a 501 response - a 5xx status - is not retried: the
very first attempt returns the terminal default-branch error, although the
claim requires 5xx responses to be retried up to the attempt count. -/
theorem status_501_not_retried :
    doRequest 3 (fun _ => .resp 501) = .terminal 501 0 := by decide

/-- Witness for C8: a 400 on the first attempt terminates immediately, and
a run of net-error then 503s exhausts all three allowed attempts and
returns the last error. -/
theorem doRequest_classification_witness :
    doRequestGo (fun i => if i = 0 then .resp 400 else .resp 200) 0 2 = .terminal 400 0 ∧
    doRequest 2 (fun i => if i = 0 then .netErr else .resp 503) = .exhausted 503 2 := by
  constructor
  · have h := (doRequest_classification 2 (fun i => if i = 0 then .resp 400 else .resp 200)).1
      0 2 400 (by decide) (by decide) (by decide) (by decide)
    simpa using h
  · have h := (doRequest_classification 2 (fun i => if i = 0 then .netErr else .resp 503)).2
      (by decide)
    simpa using h

/-- The eviction scan returns its default (height 0) or the height of an
entry whose expiry is strictly before the scan's starting time. -/
theorem findOldestAux_spec {α : Type} :
    ∀ (m : List (Nat × CEntry α)) (bh bt : Nat),
      findOldestAux m bh bt = bh ∨
        ∃ e, (findOldestAux m bh bt, e) ∈ m ∧ e.expiresAt < bt := by
  intro m
  induction m with
  | nil => intro bh bt; exact Or.inl rfl
  | cons p rest ih =>
    intro bh bt
    obtain ⟨k, e⟩ := p
    by_cases hlt : e.expiresAt < bt
    · rw [show findOldestAux ((k, e) :: rest) bh bt = findOldestAux rest k e.expiresAt from by
        simp [findOldestAux, hlt]]
      rcases ih k e.expiresAt with h0 | ⟨e2, hmem, hlt2⟩
      · right
        exact ⟨e, by simp [h0], hlt⟩
      · right
        exact ⟨e2, by simp [hmem], by omega⟩
    · rw [show findOldestAux ((k, e) :: rest) bh bt = findOldestAux rest bh bt from by
        simp [findOldestAux, hlt]]
      rcases ih bh bt with h0 | ⟨e2, hmem, hlt2⟩
      · exact Or.inl h0
      · right
        exact ⟨e2, by simp [hmem], hlt2⟩

theorem mem_keys_assocSet {κ β : Type} [DecidableEq κ] (k a : κ) (v : β) :
    ∀ (m : List (κ × β)), (a ∈ (assocSet m k v).map Prod.fst ↔ a ∈ m.map Prod.fst ∨ a = k) := by
  intro m
  induction m with
  | nil => simp [assocSet]
  | cons p rest ih =>
    obtain ⟨k1, v1⟩ := p
    by_cases h : k1 = k <;> simp [assocSet, h, ih] <;> tauto

theorem nodup_keys_assocSet {κ β : Type} [DecidableEq κ] (k : κ) (v : β) :
    ∀ (m : List (κ × β)), (m.map Prod.fst).Nodup → ((assocSet m k v).map Prod.fst).Nodup := by
  intro m
  induction m with
  | nil => intro _; simp [assocSet]
  | cons p rest ih =>
    intro h
    obtain ⟨k1, v1⟩ := p
    simp only [List.map_cons, List.nodup_cons] at h
    by_cases hk : k1 = k
    · rw [show assocSet ((k1, v1) :: rest) k v = (k, v) :: rest from by simp [assocSet, hk]]
      simp only [List.map_cons, List.nodup_cons]
      exact ⟨by rw [← hk]; exact h.1, h.2⟩
    · rw [show assocSet ((k1, v1) :: rest) k v = (k1, v1) :: assocSet rest k v from by
        simp [assocSet, hk]]
      simp only [List.map_cons, List.nodup_cons]
      refine ⟨?_, ih h.2⟩
      rw [mem_keys_assocSet]
      intro hor
      rcases hor with hor | hor
      · exact h.1 hor
      · exact hk hor

theorem assocGet_eq_of_mem {κ β : Type} [DecidableEq κ] (k : κ) (e : β) :
    ∀ (m : List (κ × β)), (m.map Prod.fst).Nodup → (k, e) ∈ m → assocGet m k = some e := by
  intro m
  induction m with
  | nil => intro _ hmem; simp at hmem
  | cons p rest ih =>
    intro hnd hmem
    obtain ⟨k1, v1⟩ := p
    simp only [List.map_cons, List.nodup_cons] at hnd
    rcases List.mem_cons.mp hmem with heq | hmem2
    · cases heq
      simp [assocGet]
    · have hk : k1 ≠ k := by
        intro hh
        apply hnd.1
        subst hh
        exact List.mem_map.mpr ⟨(k1, e), hmem2, rfl⟩
      simp only [assocGet, hk, if_false]
      exact ih hnd.2 hmem2

/-- C6 (corrected): for every height h >= 1, a hash written at time `now`
with TTL `ttl` and read back at a time before `now + ttl` is returned with
found = true, and read after `now + ttl` reports not-found.  (At h = 0 the
guarantee fails: a capacity-triggered eviction whose scan finds no expired
entry deletes the default victim key 0, which can be the fresh write
itself.) -/
theorem blockHash_roundtrip (c : BlockHashMap) (now ttl h v t : Nat)
    (hnd : (c.map Prod.fst).Nodup) (hpos : 0 < h) :
    (t < now + ttl → getBlockHash (setBlockHash c now ttl h v) t h = some v) ∧
    (now + ttl < t → getBlockHash (setBlockHash c now ttl h v) t h = none) := by
  have hub : assocGet (assocSet c h ⟨v, now + ttl⟩) h = some ⟨v, now + ttl⟩ :=
    assocGet_assocSet_self c h ⟨v, now + ttl⟩
  have hget : assocGet (setBlockHash c now ttl h v) h = some ⟨v, now + ttl⟩ := by
    unfold setBlockHash
    by_cases hlen : 100 < (assocSet c h ⟨v, now + ttl⟩).length
    · rw [if_pos hlen]
      have hknd : ((assocSet c h ⟨v, now + ttl⟩).map Prod.fst).Nodup :=
        nodup_keys_assocSet h ⟨v, now + ttl⟩ c hnd
      have hne : findOldest (assocSet c h ⟨v, now + ttl⟩) now ≠ h := by
        rcases findOldestAux_spec (assocSet c h ⟨v, now + ttl⟩) 0 now with h0 | ⟨e, hmem, hlt⟩
        · unfold findOldest
          rw [h0]
          omega
        · intro hcontra
          unfold findOldest at hcontra
          rw [hcontra] at hmem
          have hsome := assocGet_eq_of_mem h e (assocSet c h ⟨v, now + ttl⟩) hknd hmem
          rw [hub] at hsome
          have he := Option.some.inj hsome
          rw [← he] at hlt
          simp at hlt
      rw [assocGet_assocDel_ne (assocSet c h ⟨v, now + ttl⟩) (findOldest
        (assocSet c h ⟨v, now + ttl⟩) now) h hne]
      exact hub
    · rw [if_neg hlen]
      exact hub
  constructor
  · intro hlt
    have hcond : ¬((⟨v, now + ttl⟩ : CEntry Nat).expiresAt < t) := by simp; omega
    unfold getBlockHash
    rw [hget]
    simp at hcond
    simp [hcond]
  · intro hgt
    unfold getBlockHash
    rw [hget]
    simp [hgt]

/-- C6 counterexample: writing hash 7 for height 0 into a full cache of
unexpired entries (heights 1..100) and reading it back one time unit later
- well within the TTL of 10 - reports not-found, because the overflow
eviction deleted key 0, the fresh write itself. -/
theorem blockHash_write_lost_at_height_zero :
    1 < 0 + 10 ∧ getBlockHash (setBlockHash fullFreshHashCacheB 0 10 0 7) 1 0 = none := by
  decide

/-- Witness for C6: height 7 written at time 0 with TTL 10 into the empty
cache reads back as found at time 9 and as not-found at time 11. -/
theorem blockHash_roundtrip_witness :
    getBlockHash (setBlockHash [] 0 10 7 3) 9 7 = some 3 ∧
    getBlockHash (setBlockHash [] 0 10 7 3) 11 7 = none := by
  constructor
  · exact (blockHash_roundtrip [] 0 10 7 3 9 (by simp) (by decide)).1 (by decide)
  · exact (blockHash_roundtrip [] 0 10 7 3 11 (by simp) (by decide)).2 (by decide)

/-- The coin-selection loop's running total equals the sum of the amounts
of the inputs selected so far. -/
theorem selectCoins_sum (now : Nat) (req : Int) :
    ∀ (us : List Utxo) (sel : List (OutPoint × Int)) (tot : Int) (locks : LockState),
      tot = (sel.map Prod.snd).sum →
      (selectCoins now req us sel tot locks).2.1 =
        ((selectCoins now req us sel tot locks).1.map Prod.snd).sum := by
  intro us
  induction us with
  | nil =>
    intro sel tot locks h
    simpa [selectCoins] using h
  | cons u rest ih =>
    intro sel tot locks h
    by_cases hv : u.validTxid
    · by_cases hl : isLocked locks now u.op
      · rw [show selectCoins now req (u :: rest) sel tot locks =
              selectCoins now req rest sel tot locks from by
          simp [selectCoins, hv, hl]]
        exact ih sel tot locks h
      · have h' : tot + u.amount = ((sel ++ [(u.op, u.amount)]).map Prod.snd).sum := by
          simp [h]
        by_cases hreq : req ≤ tot + u.amount
        · rw [show selectCoins now req (u :: rest) sel tot locks =
                (sel ++ [(u.op, u.amount)], tot + u.amount,
                  assocSet locks u.op (now + 600)) from by
            simp [selectCoins, hv, hl, hreq]]
          exact h'
        · rw [show selectCoins now req (u :: rest) sel tot locks =
                selectCoins now req rest (sel ++ [(u.op, u.amount)]) (tot + u.amount)
                  (assocSet locks u.op (now + 600)) from by
            simp [selectCoins, hv, hl, hreq]]
          exact ih _ _ _ h'
    · rw [show selectCoins now req (u :: rest) sel tot locks =
            selectCoins now req rest sel tot locks from by simp [selectCoins, hv]]
      exact ih sel tot locks h

/-- C2: a successful `FundPsbt` call returns selected inputs whose summed
amounts meet the template's summed outputs plus the estimated fee, and the
insufficient-funds failure occurs exactly when the candidate listing is
exhausted with the running total short of the requirement - there is no
partially-funded success. -/
theorem fundPsbt_sufficiency (locks : LockState) (now : Nat) (fi : FundInput) :
    (∀ r locks2, fundPsbt locks now fi = .ok (r, locks2) →
        sumOutputs fi.txOutValues + estimatedFee fi ≤ selectedTotal r) ∧
    (fundPsbt locks now fi = .error .insufficientFunds ↔
        (selectCoins now (totalRequired fi) fi.unspent [] 0 locks).2.1 < totalRequired fi) := by
  rcases hsc : selectCoins now (totalRequired fi) fi.unspent [] 0 locks with ⟨sel, tot, lk⟩
  have hsum := selectCoins_sum now (totalRequired fi) fi.unspent [] 0 locks (by simp)
  rw [hsc] at hsum
  simp only at hsum
  constructor
  · intro r locks2 hok
    simp only [fundPsbt, hsc] at hok
    by_cases hlt : tot < totalRequired fi
    · rw [if_pos hlt] at hok
      simp at hok
    · rw [if_neg hlt] at hok
      have hreq : totalRequired fi ≤ tot := by omega
      simp only [totalRequired] at hreq
      split_ifs at hok with h1 h2 h3 <;>
        (simp only [Except.ok.injEq, Prod.mk.injEq] at hok
         obtain ⟨hX, hlk⟩ := hok
         subst hX
         show sumOutputs fi.txOutValues + estimatedFee fi ≤ (sel.map Prod.snd).sum
         omega)
  · constructor
    · intro herr
      simp only [fundPsbt, hsc] at herr
      by_cases hlt : tot < totalRequired fi
      · exact hlt
      · rw [if_neg hlt] at herr
        split_ifs at herr
        simp at herr
    · intro hlt2
      have hlt2' : tot < totalRequired fi := hlt2
      simp only [fundPsbt, hsc]
      rw [if_pos hlt2']

/-- Witness for C2: funding a 1000-unit template at fee rate 0 from a lone
1500-unit UTXO succeeds with inputs covering outputs plus fee. -/
theorem fundPsbt_sufficiency_witness :
    sumOutputs [(1000 : Int)] +
        estimatedFee ⟨[1000], 0, 0, -1, [⟨true, ⟨1, 0⟩, 1500⟩], true⟩ ≤
      selectedTotal ⟨[1000], [(⟨1, 0⟩, 1500)], -1, 0⟩ :=
  (fundPsbt_sufficiency [] 0 ⟨[1000], 0, 0, -1, [⟨true, ⟨1, 0⟩, 1500⟩], true⟩).1
    ⟨[1000], [(⟨1, 0⟩, 1500)], -1, 0⟩ [(⟨1, 0⟩, 600)] rfl

/-- C7: a successful `FundPsbt` never adds a change output for leftover
change at or below the 546 dust bound (in particular never for change
strictly below 546); when change exceeds 546, exactly one change output
carrying the full change amount is placed at the requested index when that
index is within bounds, and appended as the last output otherwise. -/
theorem fundPsbt_change_policy (locks : LockState) (now : Nat) (fi : FundInput)
    (r : FundedPsbt) (locks2 : LockState)
    (hok : fundPsbt locks now fi = .ok (r, locks2)) :
    (selectedTotal r - totalRequired fi ≤ 546 →
        r.outValues = fi.txOutValues ∧ r.changeOutputIndex = -1) ∧
    (546 < selectedTotal r - totalRequired fi →
        ((0 ≤ fi.changeIdx ∧ fi.changeIdx ≤ (fi.txOutValues.length : Int)) →
            r.outValues =
              insertAt fi.txOutValues fi.changeIdx.toNat
                (selectedTotal r - totalRequired fi) ∧
            r.changeOutputIndex = fi.changeIdx) ∧
        (¬(0 ≤ fi.changeIdx ∧ fi.changeIdx ≤ (fi.txOutValues.length : Int)) →
            r.outValues = fi.txOutValues ++ [selectedTotal r - totalRequired fi] ∧
            r.changeOutputIndex = (fi.txOutValues.length : Int))) := by
  rcases hsc : selectCoins now (totalRequired fi) fi.unspent [] 0 locks with ⟨sel, tot, lk⟩
  have hsum := selectCoins_sum now (totalRequired fi) fi.unspent [] 0 locks (by simp)
  rw [hsc] at hsum
  simp only at hsum
  simp only [fundPsbt, hsc] at hok
  by_cases hlt : tot < totalRequired fi
  · rw [if_pos hlt] at hok
    simp at hok
  · rw [if_neg hlt] at hok
    split_ifs at hok with h1 h2 h3
    · simp only [Except.ok.injEq, Prod.mk.injEq] at hok
      obtain ⟨hX, hlk⟩ := hok
      subst hX
      have hst : selectedTotal
          ⟨insertAt fi.txOutValues fi.changeIdx.toNat (tot - totalRequired fi), sel,
            fi.changeIdx, estimatedFee fi⟩ = tot := by
        simp only [selectedTotal]
        omega
      rw [hst]
      refine ⟨fun hd => absurd h1 (by omega), fun _ => ⟨fun _ => ⟨rfl, rfl⟩, fun hbad => absurd h3 hbad⟩⟩
    · simp only [Except.ok.injEq, Prod.mk.injEq] at hok
      obtain ⟨hX, hlk⟩ := hok
      subst hX
      have hst : selectedTotal
          ⟨fi.txOutValues ++ [tot - totalRequired fi], sel,
            (fi.txOutValues.length : Int), estimatedFee fi⟩ = tot := by
        simp only [selectedTotal]
        omega
      rw [hst]
      refine ⟨fun hd => absurd h1 (by omega), fun _ => ⟨fun hgood => absurd hgood h3, fun _ => ⟨rfl, rfl⟩⟩⟩
    · simp only [Except.ok.injEq, Prod.mk.injEq] at hok
      obtain ⟨hX, hlk⟩ := hok
      subst hX
      have hst : selectedTotal
          ⟨fi.txOutValues, sel, -1, estimatedFee fi⟩ = tot := by
        simp only [selectedTotal]
        omega
      rw [hst]
      refine ⟨fun _ => ⟨rfl, rfl⟩, fun hgt => absurd hgt (by omega)⟩

/-- Witness for C7: funding a 1000-unit template from a 1500-unit UTXO at
fee rate 0 leaves 500 units of change - at most the dust bound - so the
outputs are unchanged and no change index is set. -/
theorem fundPsbt_change_policy_witness :
    FundedPsbt.outValues ⟨[1000], [(⟨1, 0⟩, 1500)], -1, 0⟩ = [(1000 : Int)] ∧
    FundedPsbt.changeOutputIndex ⟨[1000], [(⟨1, 0⟩, 1500)], -1, 0⟩ = -1 :=
  (fundPsbt_change_policy [] 0 ⟨[1000], 0, 0, -1, [⟨true, ⟨1, 0⟩, 1500⟩], true⟩
    ⟨[1000], [(⟨1, 0⟩, 1500)], -1, 0⟩ [(⟨1, 0⟩, 600)] rfl).1 (by decide)

/-- With the current height a valid `uint32` at most one below the
containing height H, the `uint32(int64(currentHeight) - txBlockHeight + 1)`
conversion computes exactly `currentHeight + 1 - H`. -/
theorem confs_eq (H cur : Nat) (hH : 0 < H) (hcur : cur < 2 ^ 32) (hge : H ≤ cur + 1) :
    (((cur : Int) - (H : Int) + 1) % (2 ^ 32 : Int)).toNat = cur + 1 - H := by
  have hpow : (2 ^ 32 : Int) = 4294967296 := by norm_num
  have hpn : (2 ^ 32 : Nat) = 4294967296 := by norm_num
  rw [hpn] at hcur
  have h0 : (0 : Int) ≤ (cur : Int) - (H : Int) + 1 := by omega
  have h1 : (cur : Int) - (H : Int) + 1 < (2 ^ 32 : Int) := by rw [hpow]; omega
  rw [Int.emod_eq_of_lt h0 h1]
  omega

/-- The confirmed phase of the monitor: once the containing height H > 0 is
recorded (and `lastBlockHeight` is 0 or H), the remaining run matches the
spec's tick-by-tick delivery discipline, provided no tick is cancelled and
every observed current height is a `uint32` at least H - 1. -/
theorem monRun_post (C H : Nat) (hH : 0 < H) :
    ∀ (trace : List TickInput) (s : MonState),
      s.txBlockHeight = (H : Int) →
      (s.lastBlockHeight = 0 ∨ s.lastBlockHeight = (H : Int)) →
      (∀ i ∈ trace, i.cancelled = false) →
      (∀ i ∈ trace, ∀ cur, i.height = some cur → cur < 2 ^ 32 ∧ H ≤ cur + 1) →
      monRun C s trace = specConfOuts C H trace := by
  intro trace
  induction trace with
  | nil => intro s _ _ _ _; rfl
  | cons i rest ih =>
    intro s hTx hLast hcanc hhts
    have hci : i.cancelled = false := hcanc i (by simp)
    have hcanc' : ∀ x ∈ rest, x.cancelled = false := fun x hx => hcanc x (by simp [hx])
    have hhts' : ∀ x ∈ rest, ∀ cur, x.height = some cur → cur < 2 ^ 32 ∧ H ≤ cur + 1 :=
      fun x hx => hhts x (by simp [hx])
    have hneH : ¬((H : Int) = 0) := by omega
    have hne : s.txBlockHeight ≠ 0 := by rw [hTx]; omega
    obtain ⟨cancelled, otx, oh⟩ := i
    simp only at hci
    subst hci
    cases otx with
    | none =>
      rw [show monRun C s (⟨false, none, oh⟩ :: rest) =
            ⟨false, false, false⟩ :: monRun C s rest from by
        rw [monRun]; simp [monStep]]
      rw [show specConfOuts C H (⟨false, none, oh⟩ :: rest) =
            ⟨false, false, false⟩ :: specConfOuts C H rest from by
        rw [specConfOuts]]
      rw [ih s hTx hLast hcanc' hhts']
    | some tx =>
      obtain ⟨cf, bh⟩ := tx
      cases cf with
      | false =>
        rw [show monRun C s (⟨false, some ⟨false, bh⟩, oh⟩ :: rest) =
              ⟨false, false, false⟩ :: monRun C s rest from by
          rw [monRun]; simp [monStep]]
        rw [show specConfOuts C H (⟨false, some ⟨false, bh⟩, oh⟩ :: rest) =
              ⟨false, false, false⟩ :: specConfOuts C H rest from by
          simp [specConfOuts]]
        rw [ih s hTx hLast hcanc' hhts']
      | true =>
        cases oh with
        | none =>
          rw [show monRun C s (⟨false, some ⟨true, bh⟩, none⟩ :: rest) =
                ⟨false, false, false⟩ :: monRun C s rest from by
            rw [monRun]; simp [monStep, hne]]
          rw [show specConfOuts C H (⟨false, some ⟨true, bh⟩, none⟩ :: rest) =
                ⟨false, false, false⟩ :: specConfOuts C H rest from by
            simp [specConfOuts]]
          rw [ih s hTx hLast hcanc' hhts']
        | some cur =>
          obtain ⟨hcur, hge⟩ :=
            hhts ⟨false, some ⟨true, bh⟩, some cur⟩ (by simp) cur rfl
          have hconfs4 :
              (((cur : Int) - (H : Int) + 1) % (4294967296 : Int)).toNat = cur + 1 - H := by
            have hc := confs_eq H cur hH hcur hge
            norm_num at hc
            exact hc
          by_cases hthr : C + H ≤ cur + 1
          · have hcond : C ≤ cur + 1 - H := by omega
            have hstep : monStep C s ⟨false, some ⟨true, bh⟩, some cur⟩ =
                (⟨(H : Int), (H : Int)⟩, ⟨false, true, true⟩) := by
              rcases hLast with hl | hl <;>
                simp [monStep, hTx, hneH, hconfs4, hcond, hl]
            rw [show monRun C s (⟨false, some ⟨true, bh⟩, some cur⟩ :: rest) =
                  [⟨false, true, true⟩] from by rw [monRun, hstep]; rfl]
            rw [show specConfOuts C H (⟨false, some ⟨true, bh⟩, some cur⟩ :: rest) =
                  [⟨false, true, true⟩] from by simp [specConfOuts, hthr]]
          · have hcond : ¬(C ≤ cur + 1 - H) := by omega
            have hstep : monStep C s ⟨false, some ⟨true, bh⟩, some cur⟩ =
                (⟨(H : Int), (H : Int)⟩, ⟨false, false, false⟩) := by
              rcases hLast with hl | hl <;>
                simp [monStep, hTx, hneH, hconfs4, hcond, hl]
            rw [show monRun C s (⟨false, some ⟨true, bh⟩, some cur⟩ :: rest) =
                  ⟨false, false, false⟩ :: monRun C ⟨(H : Int), (H : Int)⟩ rest from by
              rw [monRun, hstep]; rfl]
            rw [show specConfOuts C H (⟨false, some ⟨true, bh⟩, some cur⟩ :: rest) =
                  ⟨false, false, false⟩ :: specConfOuts C H rest from by
              simp [specConfOuts, hthr]]
            rw [ih ⟨(H : Int), (H : Int)⟩ rfl (Or.inr rfl) hcanc' hhts']

/-- C1 (corrected): for a request with target C on a transaction whose
first observed containing height is H > 0, provided no tick is cancelled
and every observed current height `cur` is a valid `uint32` with
`H <= cur + 1` (no reorg below the containing height, where the `uint32`
cast wraps), the monitor's output stream equals the spec's: silent ticks
while `cur - H + 1 < C`, then exactly one confirmation event on the first
tick with `cur - H + 1 >= C`, upon which the request is removed (the run
halts) and nothing follows. -/
theorem confirmation_delivery (C H : Nat) (hH : 0 < H) :
    ∀ (trace : List TickInput),
      (∀ i ∈ trace, i.cancelled = false) →
      firstConfirmed trace = some (H : Int) →
      (∀ i ∈ trace, ∀ cur, i.height = some cur → cur < 2 ^ 32 ∧ H ≤ cur + 1) →
      monRun C ⟨0, 0⟩ trace = specConfOuts C H trace := by
  intro trace
  induction trace with
  | nil => intro _ _ _; rfl
  | cons i rest ih =>
    intro hcanc hfirst hhts
    have hci : i.cancelled = false := hcanc i (by simp)
    have hcanc' : ∀ x ∈ rest, x.cancelled = false := fun x hx => hcanc x (by simp [hx])
    have hhts' : ∀ x ∈ rest, ∀ cur, x.height = some cur → cur < 2 ^ 32 ∧ H ≤ cur + 1 :=
      fun x hx => hhts x (by simp [hx])
    obtain ⟨cancelled, otx, oh⟩ := i
    simp only at hci
    subst hci
    cases otx with
    | none =>
      have hfirst' : firstConfirmed rest = some (H : Int) := by
        simpa [firstConfirmed] using hfirst
      rw [show monRun C ⟨0, 0⟩ (⟨false, none, oh⟩ :: rest) =
            ⟨false, false, false⟩ :: monRun C ⟨0, 0⟩ rest from by
        rw [monRun]; simp [monStep]]
      rw [show specConfOuts C H (⟨false, none, oh⟩ :: rest) =
            ⟨false, false, false⟩ :: specConfOuts C H rest from by
        rw [specConfOuts]]
      rw [ih hcanc' hfirst' hhts']
    | some tx =>
      obtain ⟨cf, bh⟩ := tx
      cases cf with
      | false =>
        have hfirst' : firstConfirmed rest = some (H : Int) := by
          simpa [firstConfirmed] using hfirst
        rw [show monRun C ⟨0, 0⟩ (⟨false, some ⟨false, bh⟩, oh⟩ :: rest) =
              ⟨false, false, false⟩ :: monRun C ⟨0, 0⟩ rest from by
          rw [monRun]; simp [monStep]]
        rw [show specConfOuts C H (⟨false, some ⟨false, bh⟩, oh⟩ :: rest) =
              ⟨false, false, false⟩ :: specConfOuts C H rest from by
          simp [specConfOuts]]
        rw [ih hcanc' hfirst' hhts']
      | true =>
        have hbh : bh = (H : Int) := by
          simpa [firstConfirmed] using hfirst
        subst hbh
        cases oh with
        | none =>
          have hstep : monStep C ⟨0, 0⟩ ⟨false, some ⟨true, (H : Int)⟩, none⟩ =
              (⟨(H : Int), 0⟩, ⟨false, false, false⟩) := by
            simp [monStep]
          rw [show monRun C ⟨0, 0⟩ (⟨false, some ⟨true, (H : Int)⟩, none⟩ :: rest) =
                ⟨false, false, false⟩ :: monRun C ⟨(H : Int), 0⟩ rest from by
            rw [monRun, hstep]; rfl]
          rw [show specConfOuts C H (⟨false, some ⟨true, (H : Int)⟩, none⟩ :: rest) =
                ⟨false, false, false⟩ :: specConfOuts C H rest from by
            simp [specConfOuts]]
          rw [monRun_post C H hH rest ⟨(H : Int), 0⟩ rfl (Or.inl rfl) hcanc' hhts']
        | some cur =>
          obtain ⟨hcur, hge⟩ :=
            hhts ⟨false, some ⟨true, (H : Int)⟩, some cur⟩ (by simp) cur rfl
          have hconfs4 :
              (((cur : Int) - (H : Int) + 1) % (4294967296 : Int)).toNat = cur + 1 - H := by
            have hc := confs_eq H cur hH hcur hge
            norm_num at hc
            exact hc
          by_cases hthr : C + H ≤ cur + 1
          · have hcond : C ≤ cur + 1 - H := by omega
            have hstep : monStep C ⟨0, 0⟩ ⟨false, some ⟨true, (H : Int)⟩, some cur⟩ =
                (⟨(H : Int), (H : Int)⟩, ⟨false, true, true⟩) := by
              simp [monStep, hconfs4, hcond]
            rw [show monRun C ⟨0, 0⟩ (⟨false, some ⟨true, (H : Int)⟩, some cur⟩ :: rest) =
                  [⟨false, true, true⟩] from by rw [monRun, hstep]; rfl]
            rw [show specConfOuts C H (⟨false, some ⟨true, (H : Int)⟩, some cur⟩ :: rest) =
                  [⟨false, true, true⟩] from by simp [specConfOuts, hthr]]
          · have hcond : ¬(C ≤ cur + 1 - H) := by omega
            have hstep : monStep C ⟨0, 0⟩ ⟨false, some ⟨true, (H : Int)⟩, some cur⟩ =
                (⟨(H : Int), (H : Int)⟩, ⟨false, false, false⟩) := by
              simp [monStep, hconfs4, hcond]
            rw [show monRun C ⟨0, 0⟩ (⟨false, some ⟨true, (H : Int)⟩, some cur⟩ :: rest) =
                  ⟨false, false, false⟩ :: monRun C ⟨(H : Int), (H : Int)⟩ rest from by
              rw [monRun, hstep]; rfl]
            rw [show specConfOuts C H (⟨false, some ⟨true, (H : Int)⟩, some cur⟩ :: rest) =
                  ⟨false, false, false⟩ :: specConfOuts C H rest from by
              simp [specConfOuts, hthr]]
            rw [monRun_post C H hH rest ⟨(H : Int), (H : Int)⟩ rfl (Or.inr rfl) hcanc' hhts']

/-- C1 counterexample: the claim as stated fails when the observed current
height drops below the containing height: with target 6, first observed
containing height 100 and current height 50 the mathematical confirmation
count 50 - 100 + 1 = -49 is below 6, yet the `uint32` cast wraps the
negative difference to 4294967247 and the code delivers the confirmation
event on that very tick. -/
theorem spurious_confirmation_on_reorg_below :
    ((50 : Int) - 100 + 1 < 6) ∧
    monRun 6 ⟨0, 0⟩ [⟨false, some ⟨true, 100⟩, some 50⟩] = [⟨false, true, true⟩] := by
  decide

/-- Witness for C1 at the end-to-end scenario of the spec: confirmed at 98
with target 6, current height 100 (3 confirmations, silent) then 103 (6
confirmations, delivery and removal). -/
theorem confirmation_delivery_witness :
    monRun 6 ⟨0, 0⟩ confScenarioTrace = specConfOuts 6 98 confScenarioTrace := by
  apply confirmation_delivery 6 98 (by decide) confScenarioTrace (by decide) (by decide)
  intro i hi cur hcur
  fin_cases hi <;> simp_all <;> omega
